import Mathlib

/-
Verification of the frontier-selection core of the cam_exploration package
(src/include/cam_exploration/frontiersMap.h).

The header declares the class FrontiersMap together with the comparison
functor compFrontierValues and the size-filter functor hasNotMinumumSize.
The bodies of add, setFrontiers, hasNotMinumumSize::operator() and
addStrategy are inline in the header and are translated here directly from
that source.  The bodies of compFrontierValues::operator(),
FrontiersMap::max, FrontiersMap::sbegin, FrontiersMap::addFrontierValue and
FrontiersMap::isFrontier live in a .cpp translation unit that is not part
of the available sources; those operations are modelled from the
specification, as indicated in their doc comments.
-/

namespace cam_exploration

/-- Modelled from the spec: the type `frontier` comes from
cam_exploration/frontierValue.h, which is not among the available sources.
The spec describes a frontier as a set of grid cell coordinates (or
indices) with a derived `size` (cardinality), identity being structural. -/
structure frontier where
  cells : List Int
deriving DecidableEq, Repr

/-- Derived size of a frontier: the number of its cells. -/
def frontier.size (f : frontier) : Nat := f.cells.length

namespace strategy

/-- Modelled from the spec: `strategy::frontierValue` is declared in
cam_exploration/frontierValue.h, absent from the available sources.  The
spec describes an evaluation strategy as a capability
`score(frontier, context) → scalar`; the ambient context a strategy needs
is bound at construction, so each registered strategy is a pure scoring
function of the frontier.  The scalar is modelled as a rational number. -/
structure frontierValue where
  score : frontier → ℚ

end strategy

/-- Collection of frontier evaluation objects (fvalueType in the header:
a vector of pointers to the externally owned strategies; modelled as the
ordered list of the referenced scoring functions). -/
abbrev fvalueType := List strategy.frontierValue

/-- Aggregate score of a frontier: the sum of each registered strategy's
score of it. -/
def totalValue (fvalues : fvalueType) (f : frontier) : ℚ :=
  (List.map (fun v => v.score f) fvalues).sum

/-- Modelled from the spec: the body of `compFrontierValues::operator()` is
in frontiersMap.cpp, not among the available sources.  The spec: for two
frontiers f1, f2, compute the sum of `score(f1, ctx) − score(f2, ctx)`
across all registered strategies; f1 is "less valuable" than f2 iff the
aggregate sum is negative. -/
def compFrontierValues (fvalues : fvalueType) (f1 f2 : frontier) : Bool :=
  decide ((List.map (fun v => v.score f1 - v.score f2) fvalues).sum < 0)

/-- Functor indicating whether a certain frontier has not the minimum size
(from the header, hasNotMinumumSize::operator():
`return f.size() < siz_;`). -/
def hasNotMinumumSize (siz_ : Nat) (f : frontier) : Bool :=
  decide (f.size < siz_)

/-- State of a FrontiersMap object: its private fields together with the
public verbosity level, as declared in the header. -/
structure FrontiersMap where
  frontiers_ : List frontier
  fvalues : fvalueType
  verbosity : Int
  isConfigured : Bool
  minimum_size_ : Nat

/-- From the header: `void add(frontier f) { frontiers_.push_back(f); }`. -/
def FrontiersMap.add (m : FrontiersMap) (f : frontier) : FrontiersMap :=
  { m with frontiers_ := m.frontiers_.concat f }

/-- From the header: setFrontiers clears frontiers_ and then copies every
element of the input for which hasNotMinumumSize(minimum_size_) is false,
in input order (std::remove_copy_if with a back_inserter). -/
def FrontiersMap.setFrontiers (m : FrontiersMap) (frontiers_in : List frontier) :
    FrontiersMap :=
  { m with
    frontiers_ :=
      frontiers_in.filter (fun f => ! hasNotMinumumSize m.minimum_size_ f) }

/-- From the header: addStrategy appends the evaluation object to fvalues
(`fvalues.push_back(&fvalue);`). -/
def FrontiersMap.addStrategy (m : FrontiersMap) (fvalue : strategy.frontierValue) :
    FrontiersMap :=
  { m with fvalues := m.fvalues.concat fvalue }

/-- One maximum-scan step: keep the current candidate unless it compares
strictly less valuable than the challenger (the std::max_element
discipline, which keeps the earliest of equally valuable elements). -/
def pickMore (fvalues : fvalueType) (f g : frontier) : frontier :=
  if compFrontierValues fvalues f g then g else f

/-- Modelled from the spec: the body of `FrontiersMap::max` is in
frontiersMap.cpp, not among the available sources.  The spec: `best()`
returns the highest-ranked frontier under the aggregate comparator, fails
with a "no candidates" error (here: `none`) on an empty collection, and
ties resolve to the earliest-inserted frontier. -/
def FrontiersMap.max (m : FrontiersMap) : Option frontier :=
  match m.frontiers_ with
  | [] => none
  | f :: fs => some (fs.foldl (pickMore m.fvalues) f)

/-- Stable descending insertion: walk past every element strictly more
valuable than f and place f in front of the first element it is not less
valuable than (so an earlier-inserted tie stays in front). -/
def insertDesc (fvalues : fvalueType) (f : frontier) : List frontier → List frontier
  | [] => [f]
  | g :: gs =>
      if compFrontierValues fvalues f g then g :: insertDesc fvalues f gs
      else f :: g :: gs

/-- Stable sort of a frontier list from most valuable to least valuable
under the aggregate comparator. -/
def sortByValue (fvalues : fvalueType) : List frontier → List frontier
  | [] => []
  | f :: fs => insertDesc fvalues f (sortByValue fvalues fs)

/-- Modelled from the spec: the body of `FrontiersMap::sbegin` is in
frontiersMap.cpp, not among the available sources.  The spec:
`orderedView()` produces a read-only ordered traversal from most- to
least-valuable frontier, computed by sorting a snapshot with the aggregate
comparator, ties broken by original insertion order (stable). -/
def FrontiersMap.sbegin (m : FrontiersMap) : List frontier :=
  sortByValue m.fvalues m.frontiers_

/-- Grid access capability supplied by the external occupancy-grid
collaborator, as the spec's external interface describes it. -/
structure OccupancyGrid where
  isFree : Int → Bool
  isUnknown : Int → Bool
  neighbors : Int → List Int

/-- Modelled from the spec: the body of `FrontiersMap::isFrontier` is in
frontiersMap.cpp, not among the available sources.  The spec contract:
return true iff the cell is classified free/explored and at least one of
its neighbors is classified unknown; a pure predicate over the grid. -/
def isFrontier (g : OccupancyGrid) (c : Int) : Bool :=
  g.isFree c && (g.neighbors c).any (fun n => g.isUnknown n)

/-- Error message produced when a strategy name is not known to the
external registry. -/
def configurationError : String := "ConfigurationError: unknown strategy name"

/-- Modelled from the spec: the body of `FrontiersMap::addFrontierValue`
is in frontiersMap.cpp, not among the available sources.  The spec:
resolve the name against the external strategy registry and register the
resulting strategy; fail with a configuration error if the name is not
recognized, leaving the map configuration unchanged.  The result pairs an
optional error with the successor state. -/
def FrontiersMap.addFrontierValue (registry : String → Option strategy.frontierValue)
    (m : FrontiersMap) (name : String) : Option String × FrontiersMap :=
  match registry name with
  | none => (some configurationError, m)
  | some v => (none, { m with fvalues := m.fvalues.concat v })

/-- Right-handed formulation of the maximum scan: the earliest frontier of
`f :: l` whose aggregate score is maximal. -/
def firstBest (fvalues : fvalueType) (f : frontier) : List frontier → frontier
  | [] => f
  | g :: gs => pickMore fvalues f (firstBest fvalues g gs)

/-- Size-based evaluation strategy used for the concrete test states. -/
def szValue : strategy.frontierValue := ⟨fun f => (f.size : ℚ)⟩

/-- Constant evaluation strategy used for the concrete test states. -/
def oneValue : strategy.frontierValue := ⟨fun _ => (1 : ℚ)⟩

/-- A concrete frontier of size 5. -/
def fA : frontier := ⟨[0, 1, 2, 3, 4]⟩

/-- A concrete frontier of size 8. -/
def fB : frontier := ⟨[10, 11, 12, 13, 14, 15, 16, 17]⟩

/-- A concrete frontier of size 9. -/
def fC : frontier := ⟨[20, 21, 22, 23, 24, 25, 26, 27, 28]⟩

/-- Another concrete frontier of size 8, distinct from `fB` but of equal
aggregate score under size-based strategies. -/
def fB2 : frontier := ⟨[30, 31, 32, 33, 34, 35, 36, 37]⟩

/-- A concrete populated map state. -/
def sampleMap : FrontiersMap := ⟨[fA, fB], [szValue, oneValue], 0, true, 3⟩

/-- A concrete map state with no stored frontiers. -/
def emptyMap : FrontiersMap := ⟨[], [szValue], 0, true, 3⟩

/-- A concrete map state holding two frontiers of equal aggregate score. -/
def tieMap : FrontiersMap := ⟨[fB, fB2], [szValue], 0, true, 1⟩

/-- An empty strategy registry, recognizing no name at all. -/
def emptyRegistry : String → Option strategy.frontierValue := fun _ => none

lemma sum_map_sub (l : fvalueType) (f1 f2 : frontier) :
    (List.map (fun v => v.score f1 - v.score f2) l).sum
      = totalValue l f1 - totalValue l f2 := by
  induction l with
  | nil => simp [totalValue]
  | cons v vs ih =>
      simp only [totalValue, List.map_cons, List.sum_cons] at ih ⊢
      rw [ih]; ring

lemma comp_eq_true_iff (fv : fvalueType) (f1 f2 : frontier) :
    compFrontierValues fv f1 f2 = true ↔ totalValue fv f1 < totalValue fv f2 := by
  simp [compFrontierValues, sum_map_sub, sub_neg]

lemma comp_eq_false_iff (fv : fvalueType) (f1 f2 : frontier) :
    compFrontierValues fv f1 f2 = false ↔ totalValue fv f2 ≤ totalValue fv f1 := by
  simp [compFrontierValues, decide_eq_false_iff_not, not_lt, sub_nonneg, sum_map_sub]

/-- Claim C2: for every pair of frontiers and fixed registered strategy
set, the aggregate comparator returns true (f1 less valuable than f2) iff
the sum over the strategies of score(f1) − score(f2) is negative, which it
is iff f1's total score is less than f2's total score. -/
theorem compFrontierValues_true_iff_total_lt (fv : fvalueType) (f1 f2 : frontier) :
    compFrontierValues fv f1 f2 = true
      ↔ ((List.map (fun v => v.score f1 - v.score f2) fv).sum < 0
          ∧ totalValue fv f1 < totalValue fv f2) := by
  constructor
  · intro h
    exact ⟨by simpa [compFrontierValues] using h, (comp_eq_true_iff fv f1 f2).mp h⟩
  · intro h
    exact (comp_eq_true_iff fv f1 f2).mpr h.2

/-- Claim C3: for any fixed strategy set the aggregate comparator is
irreflexive and transitive. -/
theorem compFrontierValues_strict_weak_order (fv : fvalueType) (f1 f2 f3 : frontier) :
    compFrontierValues fv f1 f1 = false
      ∧ (compFrontierValues fv f1 f2 = true → compFrontierValues fv f2 f3 = true →
          compFrontierValues fv f1 f3 = true) := by
  refine ⟨(comp_eq_false_iff fv f1 f1).mpr le_rfl, fun h12 h23 => ?_⟩
  exact (comp_eq_true_iff fv f1 f3).mpr
    (lt_trans ((comp_eq_true_iff fv f1 f2).mp h12) ((comp_eq_true_iff fv f2 f3).mp h23))

lemma comp_fA_fB : compFrontierValues [szValue] fA fB = true := by
  rw [comp_eq_true_iff]
  norm_num [totalValue, szValue, fA, fB, frontier.size]

lemma comp_fB_fC : compFrontierValues [szValue] fB fC = true := by
  rw [comp_eq_true_iff]
  norm_num [totalValue, szValue, fB, fC, frontier.size]

/-- Witness for claim C3 at a concrete strategy set and concrete
frontiers of sizes 5, 8 and 9. -/
theorem compFrontierValues_strict_weak_order_witness :
    compFrontierValues [szValue] fA fA = false
      ∧ compFrontierValues [szValue] fA fC = true :=
  ⟨(compFrontierValues_strict_weak_order [szValue] fA fB fC).1,
    (compFrontierValues_strict_weak_order [szValue] fA fB fC).2 comp_fA_fB comp_fB_fC⟩

lemma pickMore_assoc (fv : fvalueType) (a b c : frontier) :
    pickMore fv (pickMore fv a b) c = pickMore fv a (pickMore fv b c) := by
  rcases hab : compFrontierValues fv a b with _ | _
  · rcases hbc : compFrontierValues fv b c with _ | _
    · have hba := (comp_eq_false_iff fv a b).mp hab
      have hcb := (comp_eq_false_iff fv b c).mp hbc
      have hac : compFrontierValues fv a c = false :=
        (comp_eq_false_iff fv a c).mpr (le_trans hcb hba)
      simp [pickMore, hab, hbc, hac]
    · simp [pickMore, hab, hbc]
  · rcases hbc : compFrontierValues fv b c with _ | _
    · simp [pickMore, hab, hbc]
    · have h1 := (comp_eq_true_iff fv a b).mp hab
      have h2 := (comp_eq_true_iff fv b c).mp hbc
      have hac : compFrontierValues fv a c = true :=
        (comp_eq_true_iff fv a c).mpr (lt_trans h1 h2)
      simp [pickMore, hab, hbc, hac]

lemma firstBest_pickMore (fv : fvalueType) (f g : frontier) :
    ∀ l : List frontier, firstBest fv (pickMore fv f g) l = pickMore fv f (firstBest fv g l)
  | [] => rfl
  | h :: t => by
      simp only [firstBest]
      rw [pickMore_assoc]

lemma foldl_pickMore_eq_firstBest (fv : fvalueType) :
    ∀ (l : List frontier) (f : frontier), l.foldl (pickMore fv) f = firstBest fv f l
  | [], _ => rfl
  | g :: t, f => by
      rw [List.foldl_cons, foldl_pickMore_eq_firstBest fv t (pickMore fv f g),
        firstBest_pickMore]
      rfl

lemma firstBest_mem (fv : fvalueType) :
    ∀ (l : List frontier) (f : frontier), firstBest fv f l ∈ f :: l
  | [], f => by simp [firstBest]
  | g :: t, f => by
      have ih := firstBest_mem fv t g
      simp only [firstBest, pickMore]
      rcases compFrontierValues fv f (firstBest fv g t) with _ | _
      · simp
      · simpa using Or.inr (by simpa using ih)

lemma insertDesc_head (fv : fvalueType) (f g : frontier) (gs : List frontier) :
    (insertDesc fv f (g :: gs)).head? = some (pickMore fv f g) := by
  simp only [insertDesc, pickMore]
  rcases compFrontierValues fv f g with _ | _ <;> simp

lemma insertDesc_ne_nil (fv : fvalueType) (f : frontier) :
    ∀ l : List frontier, insertDesc fv f l ≠ []
  | [] => by simp [insertDesc]
  | g :: gs => by
      simp only [insertDesc]
      rcases compFrontierValues fv f g with _ | _ <;> simp

lemma sortByValue_eq_nil_iff (fv : fvalueType) :
    ∀ l : List frontier, sortByValue fv l = [] ↔ l = [] := by
  intro l
  cases l with
  | nil => simp [sortByValue]
  | cons f fs =>
      simp only [sortByValue]
      constructor
      · intro h
        exact absurd h (insertDesc_ne_nil fv f (sortByValue fv fs))
      · intro h
        exact absurd h (List.cons_ne_nil f fs)

lemma sortByValue_head (fv : fvalueType) :
    ∀ (l : List frontier) (f : frontier),
      (sortByValue fv (f :: l)).head? = some (firstBest fv f l)
  | [], f => rfl
  | g :: t, f => by
      have ih := sortByValue_head fv t g
      have hne : sortByValue fv (g :: t) ≠ [] := by
        simp [sortByValue_eq_nil_iff]
      obtain ⟨h, hs, hcons⟩ := List.exists_cons_of_ne_nil hne
      have hh : h = firstBest fv g t := by
        rw [hcons] at ih
        simpa using ih
      simp only [sortByValue] at hcons ⊢
      rw [hcons, insertDesc_head, hh]
      simp [firstBest]

/-- Claim C5: the best frontier returned by max coincides with the first
element of the sorted traversal returned by sbegin, on every state (on an
empty collection both report absence). -/
theorem max_eq_head_sbegin (m : FrontiersMap) :
    m.max = m.sbegin.head? := by
  cases hf : m.frontiers_ with
  | nil => simp [FrontiersMap.max, FrontiersMap.sbegin, hf, sortByValue]
  | cons f fs =>
      simp only [FrontiersMap.max, FrontiersMap.sbegin, hf]
      rw [sortByValue_head, foldl_pickMore_eq_firstBest]

/-- Claim C4: on an empty stored collection (in particular right after
setFrontiers of an empty input) max reports the no-candidates error
`none`; on a non-empty collection it returns some frontier that belongs
to the stored collection, never an invalid default. -/
theorem max_empty_error (m : FrontiersMap) :
    (m.frontiers_ = [] → m.max = none)
      ∧ ((m.setFrontiers []).max = none)
      ∧ (m.frontiers_ ≠ [] → ∃ f, m.max = some f ∧ f ∈ m.frontiers_) := by
  refine ⟨fun h => by simp [FrontiersMap.max, h], ?_, fun h => ?_⟩
  · simp [FrontiersMap.max, FrontiersMap.setFrontiers]
  · obtain ⟨f, fs, hcons⟩ := List.exists_cons_of_ne_nil h
    refine ⟨firstBest m.fvalues f fs, ?_, ?_⟩
    · simp [FrontiersMap.max, hcons, foldl_pickMore_eq_firstBest]
    · rw [hcons]
      exact firstBest_mem m.fvalues fs f

/-- Witness for claim C4: a concrete empty state and a concrete populated
state. -/
theorem max_empty_error_witness :
    emptyMap.max = none
      ∧ (∃ f, sampleMap.max = some f ∧ f ∈ sampleMap.frontiers_) :=
  ⟨(max_empty_error emptyMap).1 rfl,
    (max_empty_error sampleMap).2.2 (by simp [sampleMap])⟩

lemma filter_insertDesc (fv : fvalueType) (t : ℚ) (f : frontier) :
    ∀ l : List frontier,
      (insertDesc fv f l).filter (fun x => decide (totalValue fv x = t))
        = if totalValue fv f = t
          then f :: l.filter (fun x => decide (totalValue fv x = t))
          else l.filter (fun x => decide (totalValue fv x = t))
  | [] => by
      by_cases hft : totalValue fv f = t <;> simp [insertDesc, hft]
  | g :: gs => by
      have ih := filter_insertDesc fv t f gs
      rcases hfg : compFrontierValues fv f g with _ | _
      · simp only [insertDesc, hfg, Bool.false_eq_true, if_false, List.filter_cons, ih]
        by_cases hft : totalValue fv f = t <;>
          by_cases hgt : totalValue fv g = t <;> simp [hft, hgt]
      · have hlt := (comp_eq_true_iff fv f g).mp hfg
        simp only [insertDesc, hfg, if_true, List.filter_cons, ih]
        by_cases hft : totalValue fv f = t
        · have hgt : ¬ totalValue fv g = t := by
            intro hg
            rw [hft, hg] at hlt
            exact lt_irrefl t hlt
          simp [hft, hgt]
        · by_cases hgt : totalValue fv g = t <;> simp [hft, hgt]

lemma filter_sortByValue (fv : fvalueType) (t : ℚ) :
    ∀ l : List frontier,
      (sortByValue fv l).filter (fun x => decide (totalValue fv x = t))
        = l.filter (fun x => decide (totalValue fv x = t))
  | [] => rfl
  | f :: fs => by
      rw [sortByValue, filter_insertDesc, filter_sortByValue fv t fs]
      by_cases hft : totalValue fv f = t <;> simp [List.filter_cons, hft]

/-- Claim C6: with identical stored frontiers and identical (pure)
strategies, max and sbegin give identical results, and for every aggregate
total t the frontiers of total t appear in the sorted traversal exactly in
their insertion order, so the earliest-inserted one among ties is ranked
ahead. -/
theorem selection_deterministic_and_stable (m1 m2 : FrontiersMap) (t : ℚ) :
    m1.frontiers_ = m2.frontiers_ → m1.fvalues = m2.fvalues →
      (m1.max = m2.max ∧ m1.sbegin = m2.sbegin
        ∧ m1.sbegin.filter (fun f => decide (totalValue m1.fvalues f = t))
            = m1.frontiers_.filter (fun f => decide (totalValue m1.fvalues f = t))) := by
  intro hf hv
  refine ⟨?_, ?_, ?_⟩
  · unfold FrontiersMap.max
    rw [hf, hv]
  · unfold FrontiersMap.sbegin
    rw [hf, hv]
  · exact filter_sortByValue m1.fvalues t m1.frontiers_

/-- Witness for claim C6 at a concrete state holding two distinct
frontiers with equal aggregate totals. -/
theorem selection_deterministic_and_stable_witness :
    tieMap.max = tieMap.max ∧ tieMap.sbegin = tieMap.sbegin
      ∧ tieMap.sbegin.filter (fun f => decide (totalValue tieMap.fvalues f = 8))
          = tieMap.frontiers_.filter (fun f => decide (totalValue tieMap.fvalues f = 8)) :=
  selection_deterministic_and_stable tieMap tieMap 8 rfl rfl

/-- Claim C1: setFrontiers replaces the stored collection with exactly the
candidates whose size is at least minimum_size, in input order (so a
candidate of size exactly minimum_size is kept). -/
theorem setFrontiers_keeps_exactly_min_size (m : FrontiersMap) (candidates : List frontier) :
    (m.setFrontiers candidates).frontiers_
      = candidates.filter (fun f => decide (m.minimum_size_ ≤ f.size)) := by
  show candidates.filter (fun f => ! hasNotMinumumSize m.minimum_size_ f)
      = candidates.filter (fun f => decide (m.minimum_size_ ≤ f.size))
  congr 1
  funext f
  by_cases h : f.size < m.minimum_size_
  · simp [hasNotMinumumSize, h, not_le.mpr h]
  · simp [hasNotMinumumSize, h, Nat.le_of_not_lt h]

/-- Claim C7: the frontier-cell predicate holds of a cell exactly when the
cell is free and some neighbor is unknown; it is a pure function of the
grid and mutates nothing. -/
theorem isFrontier_iff_free_with_unknown_neighbor (g : OccupancyGrid) (c : Int) :
    isFrontier g c = true
      ↔ (g.isFree c = true ∧ ∃ n ∈ g.neighbors c, g.isUnknown n = true) := by
  simp [isFrontier, List.any_eq_true]

/-- Claim C8: for a name the registry does not recognize, addFrontierValue
reports the configuration error and returns the state unchanged, so the
registered strategy list, minimum_size and verbosity are exactly as
before. -/
theorem addFrontierValue_unknown_name (registry : String → Option strategy.frontierValue)
    (m : FrontiersMap) (name : String) :
    registry name = none →
      FrontiersMap.addFrontierValue registry m name = (some configurationError, m) := by
  intro h
  simp [FrontiersMap.addFrontierValue, h]

/-- Witness for claim C8: the empty registry recognizes no name, and the
call leaves the concrete state untouched. -/
theorem addFrontierValue_unknown_name_witness :
    FrontiersMap.addFrontierValue emptyRegistry sampleMap "nonexistent"
      = (some configurationError, sampleMap) :=
  addFrontierValue_unknown_name emptyRegistry sampleMap "nonexistent" rfl

/-- Claim C9: add appends the given frontier at the end of the stored
collection with no size filtering, for every frontier including one whose
size is below minimum_size. -/
theorem add_appends_without_filtering (m : FrontiersMap) (f : frontier) :
    (m.add f).frontiers_ = m.frontiers_ ++ [f] := by
  simp [FrontiersMap.add]

/-- Claim C10: setFrontiers changes only the stored frontier collection;
the registered strategies, minimum_size, verbosity and the configured flag
are untouched by every call. -/
theorem setFrontiers_frame (m : FrontiersMap) (candidates : List frontier) :
    (m.setFrontiers candidates).fvalues = m.fvalues
      ∧ (m.setFrontiers candidates).minimum_size_ = m.minimum_size_
      ∧ (m.setFrontiers candidates).verbosity = m.verbosity
      ∧ (m.setFrontiers candidates).isConfigured = m.isConfigured :=
  ⟨rfl, rfl, rfl, rfl⟩

end cam_exploration
